import Mathlib

/-!
Verification of `training_dynamics/utils/data_tools.py`.

The Python module has two functions:
* `is_balanced(txt, symbols)` — a stack-based checker that a string's
  opening/closing symbols are well nested, where `symbols` is a dictionary
  mapping each closing symbol to its opening symbol;
* `dyck2dataset(files, use_splits)` — a loader that turns text files named
  `k<int>_m<int>_tr<token>.<subset>` into a columnar table, one row per line,
  with each line cleaned by `line.replace("END", "").replace("\n", "").strip()`.

Strings are embedded as `List Char`; the symbols dictionary as an association
list `List (Char × Char)` of (closing, opening) pairs.  The early `return False`
of the scan loop is embedded by threading an `Option (List Char)` state:
`none` means the function has already returned `False`, `some stack` is the
live stack.
-/

namespace DataTools

/-- The default symbols dictionary of the source:
`{")": "(", "]": "[", "}": "{"}`, as (closing, opening) pairs. -/
def defaultSymbols : List (Char × Char) := [(')', '('), (']', '['), ('}', '{')]

/-- `ch in symbols.values()` — `ch` is an opening symbol of the mapping. -/
def isOpening (symbols : List (Char × Char)) (ch : Char) : Bool :=
  symbols.any fun p => p.2 == ch

/-- `ch in symbols.keys()` — `ch` is a closing symbol of the mapping. -/
def isClosing (symbols : List (Char × Char)) (ch : Char) : Bool :=
  symbols.any fun p => p.1 == ch

/-- `symbols[ch]` — dictionary lookup (first matching key; a Python dict has
unique keys).  `none` corresponds to a `KeyError`. -/
def lookupVal : List (Char × Char) → Char → Option Char
  | [], _ => none
  | (k, v) :: rest, ch => if ch = k then some v else lookupVal rest ch

/-- One iteration of the scan loop of `is_balanced` on character `ch`.

Mirrors the body: `if ch in symbols.values(): stack.append(ch)`, then
(independently, the source uses `if`, not `elif`)
`if ch in symbols.keys():` pop the top if the stack is non-empty (else the
popped value is the sentinel `""`, embedded as `none`), and `return False`
when the popped value differs from `symbols[ch]`. -/
def scanStep (symbols : List (Char × Char)) (st : Option (List Char)) (ch : Char) :
    Option (List Char) :=
  match st with
  | none => none
  | some stack0 =>
    let stack1 := if isOpening symbols ch then ch :: stack0 else stack0
    if isClosing symbols ch then
      if stack1.head? = lookupVal symbols ch then some stack1.tail else none
    else some stack1

/-- The scan loop over a whole character list, from state `st`. -/
def scanList (symbols : List (Char × Char)) (st : Option (List Char)) (txt : List Char) :
    Option (List Char) :=
  txt.foldl (scanStep symbols) st

/-- The value returned after the loop: `False` if the loop already returned,
else `len(stack) == 0`. -/
def scanResult : Option (List Char) → Bool
  | none => false
  | some stack => stack.isEmpty

/-- `is_balanced(txt, symbols)` from the source. -/
def is_balanced (txt : List Char) (symbols : List (Char × Char)) : Bool :=
  scanResult (scanList symbols (some []) txt)

/-- Duplicate-free, conflict-free mapping: closing symbols pairwise distinct,
opening symbols pairwise distinct, and no character plays both roles. -/
def wellFormed (symbols : List (Char × Char)) : Bool :=
  (symbols.map Prod.fst).Nodup &&
  (symbols.map Prod.snd).Nodup &&
  symbols.all fun p => !(isOpening symbols p.1) && !(isClosing symbols p.2)

/-- The declarative notion of a balanced text, from the spec's words: every
closing symbol matches the most recently unmatched opening symbol and no
opening symbol is left unmatched.  Generated as the Dyck grammar over the
mapping: the empty text, a single non-structural character, an opening symbol
followed by a balanced text followed by its matching closing symbol, and
concatenations of balanced texts. -/
inductive Balanced (symbols : List (Char × Char)) : List Char → Prop
  | nil : Balanced symbols []
  | neutral (ch : Char) : isOpening symbols ch = false → isClosing symbols ch = false →
      Balanced symbols [ch]
  | wrap (o c : Char) (w : List Char) : lookupVal symbols c = some o →
      Balanced symbols w → Balanced symbols (o :: w ++ [c])
  | append (a b : List Char) : Balanced symbols a → Balanced symbols b →
      Balanced symbols (a ++ b)

/-- `Unmatched symbols os p`: the text `p` decomposes as balanced segments
interleaved with the opening symbols `os` (in order of occurrence, i.e.
bottom of the stack first), each of which is still unmatched at the end of
`p`.  This is the spec's description of the scan stack. -/
inductive Unmatched (symbols : List (Char × Char)) : List Char → List Char → Prop
  | base (b : List Char) : Balanced symbols b → Unmatched symbols [] b
  | cons (o : Char) (os b p : List Char) : isOpening symbols o = true →
      Balanced symbols b → Unmatched symbols os p →
      Unmatched symbols (o :: os) (b ++ o :: p)

section ScanLemmas

variable {symbols : List (Char × Char)}

theorem scanList_nil (st : Option (List Char)) : scanList symbols st [] = st := rfl

theorem scanList_cons (st : Option (List Char)) (ch : Char) (l : List Char) :
    scanList symbols st (ch :: l) = scanList symbols (scanStep symbols st ch) l := rfl

theorem scanList_append (st : Option (List Char)) (a b : List Char) :
    scanList symbols st (a ++ b) = scanList symbols (scanList symbols st a) b :=
  List.foldl_append _ _ _ _

theorem scanStep_none (ch : Char) : scanStep symbols none ch = none := rfl

theorem scanList_none (l : List Char) : scanList symbols none l = none := by
  induction l with
  | nil => rfl
  | cons ch l ih => rw [scanList_cons, scanStep_none, ih]

theorem lookupVal_isClosing {ch : Char} (h : isClosing symbols ch = true) :
    ∃ v, lookupVal symbols ch = some v := by
  induction symbols with
  | nil => simp [isClosing] at h
  | cons p rest ih =>
    obtain ⟨k, v⟩ := p
    by_cases hk : ch = k
    · exact ⟨v, by simp [lookupVal, hk]⟩
    · have h2 : isClosing rest ch = true := by
        simp only [isClosing, List.any_cons, Bool.or_eq_true, beq_iff_eq] at h
        rcases h with h1 | h1
        · exact absurd h1.symm hk
        · simpa [isClosing] using h1
      rcases ih h2 with ⟨w, hw⟩
      exact ⟨w, by simp [lookupVal, hk, hw]⟩

theorem lookupVal_mem {ch v : Char} (h : lookupVal symbols ch = some v) :
    (ch, v) ∈ symbols := by
  induction symbols with
  | nil => simp [lookupVal] at h
  | cons p rest ih =>
    obtain ⟨k, w⟩ := p
    by_cases hk : ch = k
    · simp [lookupVal, hk] at h
      simp [hk, h]
    · simp [lookupVal, hk] at h
      exact List.mem_cons_of_mem _ (ih h)

theorem mem_isOpening {c o : Char} (h : (c, o) ∈ symbols) : isOpening symbols o = true := by
  simp [isOpening]
  exact ⟨c, h⟩

theorem mem_isClosing {c o : Char} (h : (c, o) ∈ symbols) : isClosing symbols c = true := by
  simp [isClosing]
  exact ⟨o, h⟩

/-- The disjoint-roles part of `wellFormed`: no character is simultaneously an
opening and a closing symbol. -/
theorem no_dual_of_wellFormed (hw : wellFormed symbols = true) {ch : Char}
    (ho : isOpening symbols ch = true) (hc : isClosing symbols ch = true) : False := by
  simp only [wellFormed, Bool.and_eq_true, List.all_eq_true] at hw
  obtain ⟨-, hall⟩ := hw
  have ho2 := ho
  simp only [isOpening, List.any_eq_true, beq_iff_eq] at ho2
  obtain ⟨p, hp, hpv⟩ := ho2
  have := hall p hp
  simp only [Bool.and_eq_true, Bool.not_eq_true'] at this
  rw [hpv] at this
  exact absurd hc (by simp [this.2])

theorem scanStep_neutral {ch : Char} (st : List Char)
    (h1 : isOpening symbols ch = false) (h2 : isClosing symbols ch = false) :
    scanStep symbols (some st) ch = some st := by
  simp [scanStep, h1, h2]

theorem scanStep_open {ch : Char} (st : List Char)
    (h1 : isOpening symbols ch = true) (h2 : isClosing symbols ch = false) :
    scanStep symbols (some st) ch = some (ch :: st) := by
  simp [scanStep, h1, h2]

theorem scanStep_close_nil {ch : Char}
    (h1 : isOpening symbols ch = false) (h2 : isClosing symbols ch = true) :
    scanStep symbols (some []) ch = none := by
  obtain ⟨v, hv⟩ := lookupVal_isClosing h2
  simp [scanStep, h1, h2, hv]

theorem scanStep_close_cons {ch t : Char} {r : List Char}
    (h1 : isOpening symbols ch = false) (h2 : isClosing symbols ch = true) :
    scanStep symbols (some (t :: r)) ch =
      if some t = lookupVal symbols ch then some r else none := by
  simp [scanStep, h1, h2]

/-- A dual-role character (both an opening and a closing symbol) is pushed and
then immediately popped and compared against `symbols[ch]`. -/
theorem scanStep_dual {ch : Char} (st : List Char)
    (h1 : isOpening symbols ch = true) (h2 : isClosing symbols ch = true) :
    scanStep symbols (some st) ch =
      if some ch = lookupVal symbols ch then some st else none := by
  simp [scanStep, h1, h2]

/-- Frame property: a successful scan is insensitive to extra stack below. -/
theorem scanStep_frame {ch : Char} {s t : List Char} (s0 : List Char)
    (h : scanStep symbols (some s) ch = some t) :
    scanStep symbols (some (s ++ s0)) ch = some (t ++ s0) := by
  by_cases hcl : isClosing symbols ch
  · by_cases hop : isOpening symbols ch
    · rw [scanStep_dual _ hop hcl] at h
      rw [scanStep_dual _ hop hcl]
      split at h
      · rename_i hcond
        cases h
        rw [if_pos hcond]
      · exact absurd h (by simp)
    · simp only [Bool.not_eq_true] at hop
      cases s with
      | nil =>
        rw [scanStep_close_nil hop hcl] at h
        exact absurd h (by simp)
      | cons a r =>
        rw [scanStep_close_cons hop hcl] at h
        rw [List.cons_append, scanStep_close_cons hop hcl]
        split at h
        · rename_i hcond
          cases h
          rw [if_pos hcond]
        · exact absurd h (by simp)
  · simp only [Bool.not_eq_true] at hcl
    by_cases hop : isOpening symbols ch
    · rw [scanStep_open _ hop hcl] at h
      rw [scanStep_open _ hop hcl]
      cases h
      rfl
    · simp only [Bool.not_eq_true] at hop
      rw [scanStep_neutral _ hop hcl] at h
      rw [scanStep_neutral _ hop hcl]
      cases h
      rfl

theorem scanList_frame (s0 : List Char) :
    ∀ l s t : List Char, scanList symbols (some s) l = some t →
      scanList symbols (some (s ++ s0)) l = some (t ++ s0) := by
  intro l
  induction l with
  | nil =>
    intro s t h
    rw [scanList_nil] at h
    cases h
    rfl
  | cons ch l ih =>
    intro s t h
    rw [scanList_cons] at h
    cases hstep : scanStep symbols (some s) ch with
    | none =>
      rw [hstep, scanList_none] at h
      exact absurd h (by simp)
    | some s1 =>
      rw [hstep] at h
      rw [scanList_cons, scanStep_frame s0 hstep]
      exact ih s1 t h

/-- Soundness: scanning a balanced text from any stack succeeds and leaves the
stack unchanged.  Needs disjointness of the opening and closing alphabets. -/
theorem balanced_scan (hw : wellFormed symbols = true) {w : List Char}
    (hb : Balanced symbols w) : ∀ st : List Char, scanList symbols (some st) w = some st := by
  induction hb with
  | nil => intro st; rfl
  | neutral ch h1 h2 =>
    intro st
    rw [scanList_cons, scanStep_neutral st h1 h2, scanList_nil]
  | wrap o c w hlk hbw ih =>
    intro st
    have hmem := lookupVal_mem hlk
    have hoo : isOpening symbols o = true := mem_isOpening hmem
    have hcc : isClosing symbols c = true := mem_isClosing hmem
    have hoc : isClosing symbols o = false := by
      by_contra hx
      simp only [Bool.not_eq_false] at hx
      exact no_dual_of_wellFormed hw hoo hx
    have hco : isOpening symbols c = false := by
      by_contra hx
      simp only [Bool.not_eq_false] at hx
      exact no_dual_of_wellFormed hw hx hcc
    rw [scanList_append, scanList_cons (some st) o w, scanStep_open st hoo hoc,
      ih (o :: st), scanList_cons (some (o :: st)) c [], scanStep_close_cons hco hcc,
      if_pos hlk.symm, scanList_nil]
  | append a b _ _ iha ihb =>
    intro st
    rw [scanList_append, iha st, ihb st]

/-- First-return decomposition: a scan from stack `o :: s` that ends with an
empty stack splits at the closing symbol that pops this `o`: a balanced
segment, the matching closer, and a scan of the remainder from `s`. -/
theorem first_return (hw : wellFormed symbols = true) :
    ∀ n : Nat, ∀ l : List Char, l.length ≤ n → ∀ o : Char, ∀ s : List Char,
      scanList symbols (some (o :: s)) l = some [] →
      ∃ l1 c l2, l = l1 ++ c :: l2 ∧ scanList symbols (some []) l1 = some [] ∧
        isClosing symbols c = true ∧ lookupVal symbols c = some o ∧
        scanList symbols (some s) l2 = some [] := by
  intro n
  induction n with
  | zero =>
    intro l hlen o s h
    rw [List.length_eq_zero.mp (Nat.le_zero.mp hlen)] at h
    rw [scanList_nil] at h
    exact absurd h (by simp)
  | succ n ih =>
    intro l hlen o s h
    cases l with
    | nil =>
      rw [scanList_nil] at h
      exact absurd h (by simp)
    | cons ch l2 =>
      rw [scanList_cons] at h
      by_cases hcl : isClosing symbols ch
      · by_cases hop : isOpening symbols ch
        · exact (no_dual_of_wellFormed hw hop hcl).elim
        · -- a pure closing symbol pops `o`: this is the first return
          simp only [Bool.not_eq_true] at hop
          rw [scanStep_close_cons hop hcl] at h
          split at h
          · rename_i hcond
            refine ⟨[], ch, l2, rfl, rfl, hcl, hcond.symm, h⟩
          · rw [scanList_none] at h
            exact absurd h (by simp)
      · simp only [Bool.not_eq_true] at hcl
        by_cases hop : isOpening symbols ch
        · -- an opening symbol: apply the induction hypothesis twice
          rw [scanStep_open _ hop hcl] at h
          have hlen2 : l2.length ≤ n := Nat.le_of_succ_le_succ hlen
          obtain ⟨l3, c, l4, heq, h1, hc, hlk, h2⟩ := ih l2 hlen2 ch (o :: s) h
          have hlen4 : l4.length ≤ n := by
            have : l2.length = l3.length + (l4.length + 1) := by
              rw [heq, List.length_append, List.length_cons]
            omega
          obtain ⟨l5, c2, l6, heq2, h3, hc2, hlk2, h4⟩ := ih l4 hlen4 o s h2
          refine ⟨ch :: l3 ++ c :: l5, c2, l6, ?_, ?_, hc2, hlk2, h4⟩
          · rw [heq, heq2]
            simp
          · have hco : isOpening symbols c = false := by
              by_contra hx
              simp only [Bool.not_eq_false] at hx
              exact no_dual_of_wellFormed hw hx hc
            have hframe : scanList symbols (some ([] ++ [ch])) l3 = some ([] ++ [ch]) :=
              scanList_frame [ch] l3 [] [] h1
            simp only [List.nil_append] at hframe
            rw [List.cons_append, scanList_cons, scanStep_open _ hop hcl,
              scanList_append, hframe, scanList_cons, scanStep_close_cons hco hc,
              if_pos hlk.symm]
            exact h3
        · -- a neutral character leaves the stack unchanged
          simp only [Bool.not_eq_true] at hop
          rw [scanStep_neutral _ hop hcl] at h
          obtain ⟨l3, c, l4, heq, h1, hc, hlk, h2⟩ :=
            ih l2 (Nat.le_of_succ_le_succ hlen) o s h
          refine ⟨ch :: l3, c, l4, by simp [heq], ?_, hc, hlk, h2⟩
          rw [scanList_cons, scanStep_neutral _ hop hcl]
          exact h1

/-- Completeness: a text accepted by the scan is balanced. -/
theorem scan_to_balanced (hw : wellFormed symbols = true) :
    ∀ n : Nat, ∀ l : List Char, l.length ≤ n →
      scanList symbols (some []) l = some [] → Balanced symbols l := by
  intro n
  induction n with
  | zero =>
    intro l hlen _
    rw [List.length_eq_zero.mp (Nat.le_zero.mp hlen)]
    exact Balanced.nil
  | succ n ih =>
    intro l hlen h
    cases l with
    | nil => exact Balanced.nil
    | cons ch l2 =>
      rw [scanList_cons] at h
      by_cases hcl : isClosing symbols ch
      · by_cases hop : isOpening symbols ch
        · exact (no_dual_of_wellFormed hw hop hcl).elim
        · simp only [Bool.not_eq_true] at hop
          rw [scanStep_close_nil hop hcl, scanList_none] at h
          exact absurd h (by simp)
      · simp only [Bool.not_eq_true] at hcl
        by_cases hop : isOpening symbols ch
        · rw [scanStep_open _ hop hcl] at h
          have hlen2 : l2.length ≤ n := Nat.le_of_succ_le_succ hlen
          obtain ⟨l3, c, l4, heq, h1, hc, hlk, h2⟩ :=
            first_return hw l2.length l2 le_rfl ch [] h
          have hlen3 : l3.length ≤ n := by
            have : l2.length = l3.length + (l4.length + 1) := by
              rw [heq, List.length_append, List.length_cons]
            omega
          have hlen4 : l4.length ≤ n := by
            have : l2.length = l3.length + (l4.length + 1) := by
              rw [heq, List.length_append, List.length_cons]
            omega
          have hb3 : Balanced symbols l3 := ih l3 hlen3 h1
          have hb4 : Balanced symbols l4 := ih l4 hlen4 h2
          have : Balanced symbols ((ch :: l3 ++ [c]) ++ l4) :=
            Balanced.append _ _ (Balanced.wrap ch c l3 hlk hb3) hb4
          have heq2 : (ch :: l3 ++ [c]) ++ l4 = ch :: l2 := by
            rw [heq]
            simp
          rwa [heq2] at this
        · simp only [Bool.not_eq_true] at hop
          rw [scanStep_neutral _ hop hcl] at h
          have hb2 : Balanced symbols l2 := ih l2 (Nat.le_of_succ_le_succ hlen) h
          have : Balanced symbols ([ch] ++ l2) :=
            Balanced.append _ _ (Balanced.neutral ch hop hcl) hb2
          simpa using this

theorem unmatched_nil_inv {p : List Char} (h : Unmatched symbols [] p) :
    Balanced symbols p := by
  cases h with
  | base b hb => exact hb

/-- Extending a decomposition with a further balanced segment. -/
theorem unmatched_append_balanced {os p b : List Char} (h : Unmatched symbols os p)
    (hb : Balanced symbols b) : Unmatched symbols os (p ++ b) := by
  induction h with
  | base b0 hb0 => exact Unmatched.base _ (Balanced.append _ _ hb0 hb)
  | cons o os b0 p hop hb0 hu ih =>
    have h2 : Unmatched symbols (o :: os) (b0 ++ o :: (p ++ b)) :=
      Unmatched.cons o os b0 (p ++ b) hop hb0 ih
    simpa using h2

/-- Pushing a further opening symbol onto the end of a decomposition. -/
theorem unmatched_push {os p : List Char} {ch : Char} (h : Unmatched symbols os p)
    (hop : isOpening symbols ch = true) :
    Unmatched symbols (os ++ [ch]) (p ++ [ch]) := by
  induction h with
  | base b hb =>
    have h2 : Unmatched symbols [ch] (b ++ ch :: []) :=
      Unmatched.cons ch [] b [] hop hb (Unmatched.base [] Balanced.nil)
    simpa using h2
  | cons o os b p hop2 hb hu ih =>
    have h2 : Unmatched symbols (o :: (os ++ [ch])) (b ++ o :: (p ++ [ch])) :=
      Unmatched.cons o (os ++ [ch]) b (p ++ [ch]) hop2 hb ih
    simpa using h2

/-- Closing the most recent unmatched opening symbol of a decomposition. -/
theorem unmatched_pop {os2 p : List Char} {o c : Char} (h : Unmatched symbols os2 p) :
    ∀ os : List Char, os2 = os ++ [o] → lookupVal symbols c = some o →
      Unmatched symbols os (p ++ [c]) := by
  induction h with
  | base b hb =>
    intro os heq hlk
    exact absurd heq.symm (by simp)
  | cons o2 os2 b p hop hb hu ih =>
    intro os heq hlk
    cases os with
    | nil =>
      simp only [List.nil_append, List.cons.injEq] at heq
      obtain ⟨ho2, hos2⟩ := heq
      subst ho2
      subst hos2
      have hbp : Balanced symbols p := unmatched_nil_inv hu
      have hwrap : Balanced symbols ((o2 :: p) ++ [c]) := Balanced.wrap o2 c p hlk hbp
      have h2 : Unmatched symbols [] (b ++ ((o2 :: p) ++ [c])) :=
        Unmatched.base _ (Balanced.append _ _ hb hwrap)
      simpa using h2
    | cons x os3 =>
      simp only [List.cons_append, List.cons.injEq] at heq
      obtain ⟨hx, hos2⟩ := heq
      subst hx
      have h3 := ih os3 hos2 hlk
      have h2 : Unmatched symbols (o2 :: os3) (b ++ o2 :: (p ++ [c])) :=
        Unmatched.cons o2 os3 b (p ++ [c]) hop hb h3
      simpa using h2

/-- A decomposition is faithfully replayed by the scan: the stack afterwards is
exactly the unmatched opening symbols, most recent first. -/
theorem unmatched_scan (hw : wellFormed symbols = true) {os p : List Char}
    (h : Unmatched symbols os p) :
    scanList symbols (some []) p = some os.reverse := by
  induction h with
  | base b hb => simpa using balanced_scan hw hb []
  | cons o os b p hop hb hu ih =>
    have hoc : isClosing symbols o = false := by
      by_contra hx
      simp only [Bool.not_eq_false] at hx
      exact no_dual_of_wellFormed hw hop hx
    have hframe : scanList symbols (some [o]) p = some (os.reverse ++ [o]) := by
      have h2 := scanList_frame [o] p [] os.reverse ih
      simpa using h2
    rw [scanList_append, balanced_scan hw hb [], scanList_cons, scanStep_open [] hop hoc,
      hframe]
    simp

/-- Conversely, the stack reached by a successful scan is described by a
decomposition into balanced segments and still-unmatched opening symbols. -/
theorem scan_unmatched (hw : wellFormed symbols = true) :
    ∀ p s : List Char, scanList symbols (some []) p = some s →
      Unmatched symbols s.reverse p := by
  intro p
  induction p using List.reverseRecOn with
  | nil =>
    intro s h
    rw [scanList_nil] at h
    cases h
    exact Unmatched.base [] Balanced.nil
  | append_singleton p ch ih =>
    intro s h
    rw [scanList_append] at h
    cases hp : scanList symbols (some []) p with
    | none =>
      rw [hp, scanList_none] at h
      exact absurd h (by simp)
    | some s1 =>
      rw [hp, scanList_cons, scanList_nil] at h
      have ihu := ih s1 hp
      by_cases hcl : isClosing symbols ch
      · by_cases hop : isOpening symbols ch
        · exact (no_dual_of_wellFormed hw hop hcl).elim
        · simp only [Bool.not_eq_true] at hop
          cases s1 with
          | nil =>
            rw [scanStep_close_nil hop hcl] at h
            exact absurd h (by simp)
          | cons t r =>
            rw [scanStep_close_cons hop hcl] at h
            split at h
            · rename_i hcond
              cases h
              exact unmatched_pop ihu _ (by simp) hcond.symm
            · exact absurd h (by simp)
      · simp only [Bool.not_eq_true] at hcl
        by_cases hop : isOpening symbols ch
        · rw [scanStep_open _ hop hcl] at h
          cases h
          have h2 := unmatched_push ihu hop
          simpa using h2
        · simp only [Bool.not_eq_true] at hop
          rw [scanStep_neutral _ hop hcl] at h
          cases h
          exact unmatched_append_balanced ihu (Balanced.neutral ch hop hcl)

end ScanLemmas

/-- `symbols[ch]` as the Python dictionary access really is: a `KeyError`
when `ch` is not a key of the dictionary. -/
def dictGet (symbols : List (Char × Char)) (ch : Char) : Except String Char :=
  match lookupVal symbols ch with
  | some v => Except.ok v
  | none => Except.error "KeyError"

/-- The scan loop with the dictionary access modelled as a fallible operation,
mirroring the Python statement by statement: push when `ch` is an opening
symbol; when `ch` is a closing symbol, pop the top if the stack is non-empty
(the sentinel `none` standing for the initial `opening_symbol = ""`), evaluate
`symbols[ch]`, and return `False` when the two differ. -/
def scanE (symbols : List (Char × Char)) : List Char → List Char → Except String Bool
  | stack, [] => Except.ok stack.isEmpty
  | stack, ch :: rest =>
    let stack1 := if isOpening symbols ch then ch :: stack else stack
    if isClosing symbols ch then
      match dictGet symbols ch with
      | Except.error e => Except.error e
      | Except.ok v =>
        if stack1.head? = some v then scanE symbols stack1.tail rest
        else Except.ok false
    else scanE symbols stack1 rest

/-- `is_balanced` with every fallible operation made explicit. -/
def is_balancedE (txt : List Char) (symbols : List (Char × Char)) : Except String Bool :=
  scanE symbols [] txt

/-- The fallible scan never reaches the `KeyError` branch and computes exactly
the boolean of the total embedding. -/
theorem scanE_eq (symbols : List (Char × Char)) :
    ∀ txt stack : List Char,
      scanE symbols stack txt =
        Except.ok (scanResult (scanList symbols (some stack) txt)) := by
  intro txt
  induction txt with
  | nil => intro stack; rfl
  | cons ch rest ih =>
    intro stack
    rw [scanList_cons]
    by_cases hcl : isClosing symbols ch
    · obtain ⟨v, hv⟩ := lookupVal_isClosing hcl
      simp only [scanE, scanStep, hcl, if_true, dictGet, hv]
      by_cases hcond : (if isOpening symbols ch then ch :: stack else stack).head? = some v
      · rw [if_pos hcond, if_pos hcond]
        exact ih _
      · rw [if_neg hcond, if_neg hcond, scanList_none]
        rfl
    · simp only [Bool.not_eq_true] at hcl
      simp only [scanE, scanStep, hcl, Bool.false_eq_true, if_false]
      exact ih _

/-- `line.replace("END", "")`: Python's `str.replace` deletes the leftmost
occurrences of the pattern, scanning the original string left to right without
rescanning the already-produced output. -/
def replaceEND : List Char → List Char
  | [] => []
  | [c] => [c]
  | [c1, c2] => [c1, c2]
  | c1 :: c2 :: c3 :: rest =>
    if c1 = 'E' ∧ c2 = 'N' ∧ c3 = 'D' then replaceEND rest
    else c1 :: replaceEND (c2 :: c3 :: rest)

/-- The text contains no occurrence of the token `"END"` as a substring. -/
def noOcc : List Char → Bool
  | [] => true
  | [_] => true
  | [_, _] => true
  | c1 :: c2 :: c3 :: rest =>
    if c1 = 'E' ∧ c2 = 'N' ∧ c3 = 'D' then false else noOcc (c2 :: c3 :: rest)

/-- The whitespace characters removed by Python's `str.strip()`. -/
def pyWhitespace (c : Char) : Bool :=
  c = ' ' || c = '\t' || c = '\n' || c = '\r' || c = '\x0b' || c = '\x0c'

/-- Python's `line.strip()`: remove leading and trailing whitespace. -/
def strip (l : List Char) : List Char :=
  ((l.dropWhile pyWhitespace).reverse.dropWhile pyWhitespace).reverse

/-- The cleaning applied by `dyck2dataset` to every source line:
`line.replace("END", "").replace("\n", "").strip()`.  Replacing the
one-character pattern `"\n"` by the empty string is exactly a filter. -/
def cleanLine (line : List Char) : List Char :=
  strip ((replaceEND line).filter fun c => c != '\n')

/-- The fields parsed from a file name `k<int>_m<int>_tr<token>.<subset>`. -/
structure ParsedName where
  k : Int
  m : Int
  tr : List Char
  subset : List Char

/-- The flat (`use_splits = False`) column dictionary built by `dyck2dataset`:
one list per column. -/
structure FlatTable where
  k : List Int
  m : List Int
  tr : List (List Char)
  subset : List (List Char)
  text : List (List Char)

/-- The loop body of `dyck2dataset` for one file: every line of the file is
cleaned and appended to the `text` column, and each parsed field is appended
once per line (`[parsed[key]] * len(lines)`). -/
def addFile (t : FlatTable) (p : ParsedName) (lines : List (List Char)) : FlatTable :=
  let cleaned := lines.map cleanLine
  { k := t.k ++ List.replicate cleaned.length p.k
    m := t.m ++ List.replicate cleaned.length p.m
    tr := t.tr ++ List.replicate cleaned.length p.tr
    subset := t.subset ++ List.replicate cleaned.length p.subset
    text := t.text ++ cleaned }

/-- `dyck2dataset(files)` in flat mode (`use_splits = False`), the filesystem
abstracted away: each file is its parsed name fields paired with its list of
lines as returned by `f.readlines()`. -/
def dyck2dataset (files : List (ParsedName × List (List Char))) : FlatTable :=
  files.foldl (fun t f => addFile t f.1 f.2) ⟨[], [], [], [], []⟩

theorem dyck2dataset_foldl (files : List (ParsedName × List (List Char))) :
    ∀ t : FlatTable,
      (files.foldl (fun t2 f => addFile t2 f.1 f.2) t).text =
        t.text ++ (files.map fun f => f.2.map cleanLine).flatten ∧
      (files.foldl (fun t2 f => addFile t2 f.1 f.2) t).k =
        t.k ++ (files.map fun f => List.replicate f.2.length f.1.k).flatten ∧
      (files.foldl (fun t2 f => addFile t2 f.1 f.2) t).m =
        t.m ++ (files.map fun f => List.replicate f.2.length f.1.m).flatten ∧
      (files.foldl (fun t2 f => addFile t2 f.1 f.2) t).tr =
        t.tr ++ (files.map fun f => List.replicate f.2.length f.1.tr).flatten ∧
      (files.foldl (fun t2 f => addFile t2 f.1 f.2) t).subset =
        t.subset ++ (files.map fun f => List.replicate f.2.length f.1.subset).flatten := by
  induction files with
  | nil => intro t; simp
  | cons f fs ih =>
    intro t
    obtain ⟨h1, h2, h3, h4, h5⟩ := ih (addFile t f.1 f.2)
    refine ⟨?_, ?_, ?_, ?_, ?_⟩
    · rw [List.foldl_cons, h1]
      simp [addFile, List.append_assoc]
    · rw [List.foldl_cons, h2]
      simp [addFile, List.append_assoc]
    · rw [List.foldl_cons, h3]
      simp [addFile, List.append_assoc]
    · rw [List.foldl_cons, h4]
      simp [addFile, List.append_assoc]
    · rw [List.foldl_cons, h5]
      simp [addFile, List.append_assoc]

/-- Any occurrence of `"END"` preceded by an `"END"`-free context is deleted,
wherever it stands in the line. -/
theorem replaceEND_insert :
    ∀ u : List Char, noOcc u = true → ∀ v : List Char,
      replaceEND (u ++ 'E' :: 'N' :: 'D' :: v) = u ++ replaceEND v := by
  intro u
  induction u with
  | nil =>
    intro _ v
    simp [replaceEND]
  | cons c u2 ih =>
    intro h v
    cases u2 with
    | nil =>
      have hno : ¬(c = 'E' ∧ 'E' = 'N' ∧ 'N' = 'D') := fun h3 => absurd h3.2.1 (by decide)
      simp only [List.cons_append, List.nil_append, replaceEND, if_neg hno]
      simp [replaceEND]
    | cons x u3 =>
      cases u3 with
      | nil =>
        have hno : ¬(c = 'E' ∧ x = 'N' ∧ 'E' = 'D') := fun h3 => absurd h3.2.2 (by decide)
        simp only [List.cons_append, List.nil_append, replaceEND, if_neg hno]
        have h2 := ih (by rfl) v
        exact congrArg (List.cons c) h2
      | cons y u4 =>
        have h2 : noOcc (c :: x :: y :: u4) = true := h
        simp only [noOcc] at h2
        split at h2
        · exact absurd h2 (by simp)
        · rename_i hno
          have h3 := ih h2 v
          simp only [List.cons_append] at h3
          simp only [List.cons_append, replaceEND, if_neg hno, List.append_eq]
          rw [h3]

/-- The closing symbol matching each opening symbol of the default mapping. -/
def flipDefault (c : Char) : Char :=
  if c = '(' then ')' else if c = '[' then ']' else if c = '{' then '}' else c

/-- The classic mirrored suffix: each opening symbol of `s` mapped to its
matching closing symbol, in reverse order. -/
def reverse_and_flip (s : List Char) : List Char :=
  (s.map flipDefault).reverse

theorem mirror_balanced_aux :
    ∀ s : List Char, (∀ c ∈ s, isOpening defaultSymbols c = true) →
      Balanced defaultSymbols (s ++ reverse_and_flip s) := by
  intro s
  induction s with
  | nil =>
    intro _
    exact Balanced.nil
  | cons c s ih =>
    intro h
    have hc : isOpening defaultSymbols c = true := h c (by simp)
    have hs : ∀ x ∈ s, isOpening defaultSymbols x = true := fun x hx => h x (by simp [hx])
    have hb := ih hs
    have hc3 : c = '(' ∨ c = '[' ∨ c = '{' := by
      simp only [isOpening, defaultSymbols, List.any_cons, List.any_nil, Bool.or_eq_true,
        Bool.or_false, beq_iff_eq] at hc
      rcases hc with h1 | h1 | h1
      · exact Or.inl h1.symm
      · exact Or.inr (Or.inl h1.symm)
      · exact Or.inr (Or.inr h1.symm)
    have hlk : lookupVal defaultSymbols (flipDefault c) = some c := by
      rcases hc3 with h1 | h1 | h1 <;> simp [h1, flipDefault, lookupVal, defaultSymbols]
    have hwrap : Balanced defaultSymbols
        ((c :: (s ++ reverse_and_flip s)) ++ [flipDefault c]) :=
      Balanced.wrap c (flipDefault c) _ hlk hb
    have heq : (c :: (s ++ reverse_and_flip s)) ++ [flipDefault c]
        = (c :: s) ++ reverse_and_flip (c :: s) := by
      simp [reverse_and_flip, List.append_assoc]
    rwa [heq] at hwrap

/-- Scanning a text of non-structural characters leaves any stack unchanged. -/
theorem neutral_scan {symbols : List (Char × Char)} :
    ∀ txt : List Char,
      (∀ c ∈ txt, isOpening symbols c = false ∧ isClosing symbols c = false) →
      ∀ st : List Char, scanList symbols (some st) txt = some st := by
  intro txt
  induction txt with
  | nil => intro _ st; rfl
  | cons ch l ih =>
    intro h st
    obtain ⟨h1, h2⟩ := h ch (by simp)
    rw [scanList_cons, scanStep_neutral st h1 h2]
    exact ih (fun c hc => h c (by simp [hc])) st

/-- Claim C1: for every text and every symbol mapping whose opening and
closing symbol sets are free of conflicting duplicates (no duplicates within
a set, no character in both roles), `is_balanced` returns `true` iff every
closing symbol matches the most recently unmatched opening symbol and no
opening symbol is left unmatched at the end — that is, iff the text is in the
Dyck language `Balanced` of the mapping; non-structural characters have no
effect on the result. -/
theorem is_balanced_correct (symbols : List (Char × Char)) (txt : List Char)
    (hw : wellFormed symbols = true) :
    is_balanced txt symbols = true ↔ Balanced symbols txt := by
  constructor
  · intro h
    unfold is_balanced at h
    cases hs : scanList symbols (some []) txt with
    | none =>
      rw [hs] at h
      exact absurd h (by simp [scanResult])
    | some s =>
      rw [hs] at h
      have hnil : s = [] := by simpa [scanResult] using h
      subst hnil
      exact scan_to_balanced hw txt.length txt le_rfl hs
  · intro h
    unfold is_balanced
    rw [balanced_scan hw h []]
    rfl

/-- Witness for C1: the default mapping is well formed and `"()"` is
balanced. -/
theorem is_balanced_correct_witness : Balanced defaultSymbols ['(', ')'] :=
  (is_balanced_correct defaultSymbols ['(', ')'] (by decide)).mp (by decide)

/-- Claim C2: at every point during the scan of a text — that is, after every
prefix `p` of it — the stack `s` is characterised exactly: `p` decomposes
into balanced segments interleaved with the elements of `s`, which are the
already-scanned opening symbols whose matching closing symbol has not yet
been seen, most recent first. -/
theorem scan_stack_invariant (symbols : List (Char × Char))
    (txt p rest s : List Char) (hw : wellFormed symbols = true)
    (_hsplit : txt = p ++ rest) :
    scanList symbols (some []) p = some s ↔ Unmatched symbols s.reverse p := by
  constructor
  · intro h
    exact scan_unmatched hw p s h
  · intro h
    have h2 := unmatched_scan hw h
    rwa [List.reverse_reverse] at h2

/-- Witness for C2 at the prefix `"([x"` of itself, whose stack is
`['[', '(']` (most recent first). -/
theorem scan_stack_invariant_witness :
    Unmatched defaultSymbols ['(', '['] ['(', '[', 'x'] :=
  (scan_stack_invariant defaultSymbols ['(', '[', 'x'] ['(', '[', 'x'] [] ['[', '(']
    (by decide) (by simp)).mp (by decide)

/-- Counterexample to C3 as stated: with the mapping `{'a': 'a'}`, the
closing symbol `'a'` is encountered while the stack is empty, yet
`is_balanced` returns `true` rather than failing immediately — the character
is also an opening symbol, so it is pushed before the pop, and the popped
value is `'a'` itself, not the sentinel. -/
theorem close_empty_counterexample :
    isClosing [('a', 'a')] 'a' = true ∧
    scanList [('a', 'a')] (some []) [] = some [] ∧
    is_balanced ['a'] [('a', 'a')] = true := by
  decide

/-- Claim C3 (amended): if a closing symbol that is not also an opening
symbol is encountered while the stack is empty, the function immediately
returns `false`, whatever the rest of the text is — the sentinel popped from
an empty stack cannot equal any real opening symbol. -/
theorem close_on_empty_fails (symbols : List (Char × Char)) (p rest : List Char)
    (ch : Char) (hc : isClosing symbols ch = true) (ho : isOpening symbols ch = false)
    (hp : scanList symbols (some []) p = some []) :
    is_balanced (p ++ ch :: rest) symbols = false := by
  unfold is_balanced
  rw [scanList_append, hp, scanList_cons, scanStep_close_nil ho hc, scanList_none]
  rfl

/-- Witness for C3 (amended) on the text `")x"` with the default mapping. -/
theorem close_on_empty_fails_witness :
    is_balanced [')', 'x'] defaultSymbols = false :=
  close_on_empty_fails defaultSymbols [] ['x'] ')' (by decide) (by decide) rfl

/-- Claim C4: a character that is simultaneously an opening and a closing
symbol goes through both checks within its single iteration, opening first:
it is pushed, and then the closing check pops the just-pushed character back
and compares it with `symbols[ch]` — the closing branch is not skipped. -/
theorem dual_role_both_checks (symbols : List (Char × Char)) (st : List Char) (ch : Char)
    (h1 : isOpening symbols ch = true) (h2 : isClosing symbols ch = true) :
    scanStep symbols (some st) ch =
      if some ch = lookupVal symbols ch then some st else none :=
  scanStep_dual st h1 h2

/-- Witness for C4 with the dual-role mapping `{'a': 'a'}` on an empty
stack: the step succeeds and restores the stack. -/
theorem dual_role_both_checks_witness :
    scanStep [('a', 'a')] (some []) 'a' = some [] := by
  rw [dual_role_both_checks [('a', 'a')] [] 'a' (by decide) (by decide)]
  decide

/-- Claim C5: for every string `s` of opening symbols of the default
mapping, `is_balanced (s ++ reverse_and_flip s)` returns `true` — the
classic balanced construction. -/
theorem mirror_construction_balanced (s : List Char)
    (h : ∀ c ∈ s, isOpening defaultSymbols c = true) :
    is_balanced (s ++ reverse_and_flip s) defaultSymbols = true := by
  have hw : wellFormed defaultSymbols = true := by decide
  unfold is_balanced
  rw [balanced_scan hw (mirror_balanced_aux s h) []]
  rfl

/-- Witness for C5 at `s = "(["`. -/
theorem mirror_construction_witness :
    is_balanced (['(', '['] ++ reverse_and_flip ['(', '[']) defaultSymbols = true :=
  mirror_construction_balanced ['(', '['] (by decide)

/-- Claim C6: a text made only of non-structural characters is reported
balanced; in particular the empty text is. -/
theorem neutral_only_balanced (symbols : List (Char × Char)) (txt : List Char)
    (h : ∀ c ∈ txt, isOpening symbols c = false ∧ isClosing symbols c = false) :
    is_balanced txt symbols = true := by
  unfold is_balanced
  rw [neutral_scan txt h []]
  rfl

/-- Witness for C6: the empty text and a non-structural text, with the
default mapping. -/
theorem neutral_only_witness :
    is_balanced [] defaultSymbols = true ∧
    is_balanced ['a', 'b', ' ', '1'] defaultSymbols = true :=
  ⟨neutral_only_balanced defaultSymbols [] (by decide),
   neutral_only_balanced defaultSymbols ['a', 'b', ' ', '1'] (by decide)⟩

/-- Claim C7: `is_balanced` raises no errors and is total: with the
dictionary access `symbols[ch]` modelled as a fallible operation
(`KeyError` when `ch` is not a key) and the guarded pop made explicit, the
scan never reaches an error branch and always returns exactly the boolean
computed by `is_balanced`, for every text and every mapping. -/
theorem is_balanced_no_error (txt : List Char) (symbols : List (Char × Char)) :
    is_balancedE txt symbols = Except.ok (is_balanced txt symbols) :=
  scanE_eq symbols txt []

/-- Counterexample to C8 as stated: a file whose single line is `"END\n"`
has zero non-empty lines after cleaning, yet the table contains one row
(with empty text) — empty lines do contribute rows. -/
theorem dyck2dataset_empty_line_counterexample :
    (dyck2dataset [(⟨1, 2, ['t'], ['s']⟩, [['E', 'N', 'D', '\n']])]).text = [[]] ∧
    cleanLine ['E', 'N', 'D', '\n'] = [] := by
  decide

/-- Claim C8 (amended): the flat table has one row per line of the input
files — lines that are empty, or become empty after cleaning, contribute
rows too — and each row replicates the `k`, `m`, `tr` and `subset` fields
parsed from its file's name. -/
theorem dyck2dataset_rows (files : List (ParsedName × List (List Char))) :
    (dyck2dataset files).text = (files.map fun f => f.2.map cleanLine).flatten ∧
    (dyck2dataset files).text.length = (files.map fun f => f.2.length).sum ∧
    (dyck2dataset files).k =
      (files.map fun f => List.replicate f.2.length f.1.k).flatten ∧
    (dyck2dataset files).m =
      (files.map fun f => List.replicate f.2.length f.1.m).flatten ∧
    (dyck2dataset files).tr =
      (files.map fun f => List.replicate f.2.length f.1.tr).flatten ∧
    (dyck2dataset files).subset =
      (files.map fun f => List.replicate f.2.length f.1.subset).flatten := by
  obtain ⟨h1, h2, h3, h4, h5⟩ := dyck2dataset_foldl files ⟨[], [], [], [], []⟩
  refine ⟨?_, ?_, ?_, ?_, ?_, ?_⟩
  · rw [dyck2dataset, h1]
    simp
  · rw [dyck2dataset, h1]
    simp only [List.nil_append]
    rw [List.length_flatten, List.map_map]
    have hfun : (List.length ∘ fun f : ParsedName × List (List Char) =>
        List.map cleanLine f.2) = fun f => f.2.length := by
      funext f
      simp
    rw [hfun]
  · rw [dyck2dataset, h2]
    simp
  · rw [dyck2dataset, h3]
    simp
  · rw [dyck2dataset, h4]
    simp
  · rw [dyck2dataset, h5]
    simp

/-- Counterexample to C9 as stated: the `"END"` in the middle of the line
`"aENDb\n"` is not a trailing marker, yet it is removed — the text field is
`"ab"`, not `"aENDb"`. -/
theorem cleanLine_nontrailing_counterexample :
    (dyck2dataset [(⟨1, 2, ['t'], ['s']⟩, [['a', 'E', 'N', 'D', 'b', '\n']])]).text
      = [['a', 'b']] := by
  decide

/-- Claim C9 (amended): when building the text field, every occurrence of
the end marker `"END"` is deleted (leftmost first), not only a trailing one,
together with every line terminator, and surrounding whitespace is trimmed;
a non-trailing occurrence of `"END"` is deleted, not preserved. -/
theorem replaceEND_all_occurrences (u v : List Char) (h : noOcc u = true) :
    replaceEND (u ++ 'E' :: 'N' :: 'D' :: v) = u ++ replaceEND v ∧
    cleanLine (u ++ 'E' :: 'N' :: 'D' :: v) =
      strip ((u ++ replaceEND v).filter fun c => c != '\n') := by
  have h1 := replaceEND_insert u h v
  exact ⟨h1, by rw [cleanLine, h1]⟩

/-- Witness for C9 (amended): the inner `"END"` of `"aENDb"` is removed. -/
theorem replaceEND_all_occurrences_witness :
    replaceEND ['a', 'E', 'N', 'D', 'b'] = ['a', 'b'] :=
  (replaceEND_all_occurrences ['a'] ['b'] (by decide)).1

/-- Claim C10: texts accepted by `is_balanced` are closed under
concatenation, for every symbol mapping: a `true` result leaves the scan
with an empty stack and no failure, so the scan of the second text proceeds
from the same fresh state. -/
theorem is_balanced_concat (symbols : List (Char × Char)) (a b : List Char)
    (ha : is_balanced a symbols = true) (hb : is_balanced b symbols = true) :
    is_balanced (a ++ b) symbols = true := by
  unfold is_balanced at ha hb ⊢
  cases hsa : scanList symbols (some []) a with
  | none =>
    rw [hsa] at ha
    exact absurd ha (by simp [scanResult])
  | some s =>
    rw [hsa] at ha
    have hnil : s = [] := by simpa [scanResult] using ha
    subst hnil
    rw [scanList_append, hsa]
    exact hb

/-- Witness for C10 at `"()"` and `"[]"` with the default mapping. -/
theorem is_balanced_concat_witness :
    is_balanced (['(', ')'] ++ ['[', ']']) defaultSymbols = true :=
  is_balanced_concat defaultSymbols ['(', ')'] ['[', ']'] (by decide) (by decide)

end DataTools
